import Mathlib

/-!
Verification of the response-shaping and structural-diff core of the
argocd-mcp repository (package `tools`: `helpers.go` and
`argocd_tools.go`).

Modelling conventions:
* Go strings are modelled as `List Char` (the inputs of interest are
  ASCII, where Go's byte length and slicing coincide with character
  length and slicing).
* Go's dynamic `interface{}` values that arise from JSON/YAML
  decoding are modelled by the inductive type `GoVal`
  (nil / bool / number / string / `[]interface{}` / `map[string]interface{}`).
  Numbers are modelled as `Int`; none of the verified code inspects
  the numeric value beyond formatting.
* A Go map is modelled as an association list together with its
  iteration order; Go guarantees unique keys but not any particular
  iteration order.
* A Go panic is modelled by `Option.none`; fallible Go functions
  returning `(T, error)` are modelled by `Option T` with `none`
  standing for a non-nil error.
-/

/-- Constant `MaxListItems` from helpers.go: ceiling on list items. -/
def MaxListItems : Nat := 50

/-- Constant `MaxEvents` from helpers.go: ceiling on returned events. -/
def MaxEvents : Nat := 20

/-- Constant `MaxResponseLines` from helpers.go: ceiling on lines in a response field. -/
def MaxResponseLines : Nat := 100

/-- Constant `MaxResponseSizeChars` from helpers.go: ceiling on characters in a response string. -/
def MaxResponseSizeChars : Nat := 50000

/-- Model of `strings.Split(s, "\n")`: splits on newline; the result is always
non-empty (splitting the empty string gives one empty piece). -/
def splitNL : List Char → List (List Char)
  | [] => [[]]
  | c :: rest =>
    match splitNL rest with
    | [] => [[]]
    | h :: t => if c = '\n' then [] :: h :: t else (c :: h) :: t

/-- Model of `strings.Join(pieces, "\n")`: joins pieces with a newline separator. -/
def joinNL : List (List Char) → List Char
  | [] => []
  | [x] => x
  | x :: xs => x ++ '\n' :: joinNL xs

/-- The marker appended by `truncateLines`: `"\n... (truncated)"`. -/
def truncMarker : List Char := '\n' :: ("... (truncated)".toList)

/-- Function `truncateString` from helpers.go: truncates a string to a maximum
number of characters, replacing the tail with `"..."` when cut. -/
def truncateString (s : List Char) (maxChars : Nat) : List Char :=
  if s.length ≤ maxChars then s
  else if maxChars ≤ 3 then List.replicate maxChars '.'
  else s.take (maxChars - 3) ++ ("...".toList)

/-- Function `truncateLines` from helpers.go: truncates a multi-line string to a
maximum number of lines, appending the `"... (truncated)"` marker when cut. -/
def truncateLines (s : List Char) (maxLines : Nat) : List Char :=
  let lines := splitNL s
  if lines.length ≤ maxLines then s
  else joinNL (lines.take maxLines) ++ truncMarker

/-- A decoded Go `interface{}` value (JSON/YAML generic tree):
nil, bool, number, string, `[]interface{}`, `map[string]interface{}`. -/
inductive GoVal where
  | null : GoVal
  | bool : Bool → GoVal
  | num : Int → GoVal
  | str : List Char → GoVal
  | arr : List GoVal → GoVal
  | obj : List (String × GoVal) → GoVal

/-- Go map indexing `m[k]` (keys of a Go map are unique; lookup finds
the unique binding when the key list is duplicate-free). -/
def lookupGo (k : String) : List (String × GoVal) → Option GoVal
  | [] => none
  | (k2, v) :: rest => if k2 = k then some v else lookupGo k rest

mutual
/-- Function `truncateResponse` from helpers.go: bounds a response value.
Strings are char-truncated then line-truncated; lists longer than
`MaxListItems` are cut to their prefix (kept elements are returned
as-is); maps are rebuilt with every value recursively bounded; other
values are returned unchanged. -/
def truncateResponse : GoVal → GoVal
  | GoVal.str s =>
      GoVal.str (truncateLines (truncateString s MaxResponseSizeChars) MaxResponseLines)
  | GoVal.arr v =>
      if v.length > MaxListItems then GoVal.arr (v.take MaxListItems) else GoVal.arr v
  | GoVal.obj kvs => GoVal.obj (truncateResponseMap kvs)
  | v => v

/-- The `map[string]interface{}` case of `truncateResponse`: rebuild the
map with each value bounded. -/
def truncateResponseMap : List (String × GoVal) → List (String × GoVal)
  | [] => []
  | (k, v) :: rest => (k, truncateResponse v) :: truncateResponseMap rest
end

/-- An `mcp.CallToolResult` as built by helpers.go, with the single text
content kept in structured (pre-`json.MarshalIndent`) form. -/
structure MCPResult where
  text : GoVal
  isError : Bool

/-- Function `errorResult` from helpers.go. -/
def errorResult (message : List Char) : MCPResult :=
  { text := GoVal.str message, isError := true }

/-- Function `ResultList` from helpers.go. The unchecked type assertions
`items.([]interface{})` and `truncateResponse(itemsList).([]interface{})`
panic (modelled as `none`) when the asserted value is not a
`[]interface{}`. The response struct carries exactly the fields
`items` and `total`. -/
def ResultList (items : GoVal) (total : Int) (err : Option (List Char)) : Option MCPResult :=
  match err with
  | some e => some (errorResult e)
  | none =>
    match items with
    | GoVal.arr xs =>
      match truncateResponse (GoVal.arr xs) with
      | GoVal.arr ys =>
        some { text := GoVal.obj [("items", GoVal.arr ys), ("total", GoVal.num total)],
               isError := false }
      | _ => none
    | _ => none

/-- Model of `json.Unmarshal` of a JSON value into a `map[string]interface{}`:
succeeds on an object, and on `null` (yielding a nil map, which behaves
as an empty map); fails otherwise. -/
def asEventMap : GoVal → Option (List (String × GoVal))
  | GoVal.obj m => some m
  | GoVal.null => some []
  | _ => none

/-- Model of `json.Unmarshal` of a JSON value into `[]map[string]interface{}`:
succeeds on `null` (nil slice) and on an array whose elements each
unmarshal into a map; fails otherwise. -/
def asObjArray : GoVal → Option (List (List (String × GoVal)))
  | GoVal.null => some []
  | GoVal.arr xs => xs.mapM asEventMap
  | _ => none

/-- Function `parseEvents` from argocd_tools.go: the input (already a decoded
JSON value) is first tried as an object whose `items` field unmarshals
into a list of records (the wrapped-list shape); on an absent `items`
field, a non-object input, or an `items` value that is not a record
list, it falls back to unmarshalling the whole input as a bare record
list. `none` models the returned error. -/
def parseEvents (eventsRaw : GoVal) : Option (List (List (String × GoVal))) :=
  match eventsRaw with
  | GoVal.obj kvs =>
    match lookupGo "items" kvs with
    | some itemsVal =>
      match asObjArray itemsVal with
      | some items => some items
      | none => asObjArray (GoVal.obj kvs)
    | none => asObjArray (GoVal.obj kvs)
  | raw => asObjArray raw

/-- The event-projection step of `handleGetApplicationEvents`: each
record is reduced to the four canonical fields; a field absent from the
record map yields the Go zero value `nil` (JSON `null`). -/
def eventEntry (eventMap : List (String × GoVal)) : GoVal :=
  GoVal.obj [("type", (lookupGo "type" eventMap).getD GoVal.null),
             ("reason", (lookupGo "reason" eventMap).getD GoVal.null),
             ("message", (lookupGo "message" eventMap).getD GoVal.null),
             ("timestamp", (lookupGo "timestamp" eventMap).getD GoVal.null)]

/-- The loop of `handleGetApplicationEvents` building `eventList`
(every element produced by `parseEvents` is a map, so the `!ok`
skip branch of the loop is unreachable). -/
def formatEventList (events : List (List (String × GoVal))) : List GoVal :=
  events.map eventEntry

/-- Insertion step for sorting rendered map entries by key
(Go's `fmt` prints map keys in sorted order). -/
def insertByKey (p : String × String) : List (String × String) → List (String × String)
  | [] => [p]
  | q :: rest => if p.1 ≤ q.1 then p :: q :: rest else q :: insertByKey p rest

/-- Key-sort of rendered map entries, mirroring `fmt`'s sorted map printing. -/
def sortByKey : List (String × String) → List (String × String)
  | [] => []
  | p :: rest => insertByKey p (sortByKey rest)

/-- Space-separated concatenation, as in `fmt`'s composite printing. -/
def joinSp : List String → String
  | [] => ""
  | [x] => x
  | x :: xs => x ++ " " ++ joinSp xs

mutual
/-- Model of `fmt.Sprintf("%v", v)` for a decoded value: strings print verbatim,
`nil` prints `<nil>`, slices print `[e1 e2 ...]`, maps print
`map[k1:v1 k2:v2 ...]` with keys sorted. -/
def goFmt : GoVal → String
  | GoVal.null => "<nil>"
  | GoVal.bool b => if b then "true" else "false"
  | GoVal.num n => toString n
  | GoVal.str s => String.mk s
  | GoVal.arr xs => "[" ++ joinSp (goFmtList xs) ++ "]"
  | GoVal.obj kvs =>
      "map[" ++ joinSp ((sortByKey (goFmtMap kvs)).map fun p => p.1 ++ ":" ++ p.2) ++ "]"

/-- Renders each slice element. -/
def goFmtList : List GoVal → List String
  | [] => []
  | v :: rest => goFmt v :: goFmtList rest

/-- Renders each map value, keeping its key for sorting. -/
def goFmtMap : List (String × GoVal) → List (String × String)
  | [] => []
  | (k, v) :: rest => (k, goFmt v) :: goFmtMap rest
end

/-- The indexed path segment `fmt.Sprintf("%s[%d]", path, i)`. -/
def idxPath (path : String) (i : Nat) : String := path ++ "[" ++ toString i ++ "]"

/-- The extended key path of `compareMaps`: `key` at the top level,
`path.key` below. -/
def keyPath (path k : String) : String := if path = "" then k else path ++ "." ++ k

/-- A `(REMOVED)` diff line. -/
def removedLine (path : String) (v : GoVal) : String :=
  "  " ++ path ++ ": " ++ goFmt v ++ " (REMOVED)"

/-- An `(ADDED)` diff line. -/
def addedLine (path : String) (v : GoVal) : String :=
  "  " ++ path ++ ": " ++ goFmt v ++ " (ADDED)"

/-- A changed-value diff line (`live -> target`, as in the source). -/
def changedLine (path : String) (target live : GoVal) : String :=
  "  " ++ path ++ ": " ++ goFmt live ++ " -> " ++ goFmt target

/-- The second loop of `compareMaps`: an `(ADDED)` line for every key of
`live` (in `live`'s iteration order) absent from `target`. -/
def addedKeys (path : String) (target live : List (String × GoVal)) : List String :=
  live.filterMap fun kv =>
    if (lookupGo kv.1 target).isNone then some (addedLine (keyPath path kv.1) kv.2) else none

/-- Lemma: `lookupGo` only returns values stored in the list. -/
theorem lookupGo_sizeOf {k : String} :
    ∀ {l : List (String × GoVal)} {v : GoVal}, lookupGo k l = some v → sizeOf v < sizeOf l := by
  intro l
  induction l with
  | nil => intro v h; simp [lookupGo] at h
  | cons p rest ih =>
    intro v h
    obtain ⟨k2, w⟩ := p
    by_cases hk : k2 = k
    · simp [lookupGo, hk] at h
      subst h
      simp
      omega
    · simp [lookupGo, hk] at h
      have := ih h
      simp
      omega

mutual
/-- Function `compareValues` from argocd_tools.go: dispatches on the runtime
shapes; two maps recurse through `compareMaps` (inlined here as its two
loops), two slices recurse through `compareSlices`, anything else is
compared by its `%v` rendering and emits one changed line when the
renderings differ. -/
def compareValues (path : String) (target live : GoVal) : List String :=
  match target, live with
  | GoVal.obj tm, GoVal.obj lm => compareMapsT path tm lm ++ addedKeys path tm lm
  | GoVal.arr ts, GoVal.arr ls => compareSlices path ts ls 0
  | t, l => if goFmt t ≠ goFmt l then [changedLine path t l] else []
termination_by sizeOf target + sizeOf live
decreasing_by
  all_goals simp_wf
  all_goals omega

/-- The first loop of `compareMaps`: for every key of `target` (in
`target`'s iteration order), a `(REMOVED)` line when the key is absent
from `live`, otherwise a recursive comparison at the extended path. -/
def compareMapsT (path : String) (target live : List (String × GoVal)) : List String :=
  match target with
  | [] => []
  | (k, tv) :: rest =>
    (match hlook : lookupGo k live with
     | none => [removedLine (keyPath path k) tv]
     | some lv => compareValues (keyPath path k) tv lv) ++ compareMapsT path rest live
termination_by sizeOf target + sizeOf live
decreasing_by
  all_goals simp_wf
  all_goals first
  | omega
  | (have hsz := lookupGo_sizeOf hlook; omega)

/-- Function `compareSlices` from argocd_tools.go: the index loop
`for i := 0; i < maxLen; i++`, written as simultaneous recursion on the
two slices with the running index `i`. -/
def compareSlices (path : String) (target live : List GoVal) (i : Nat) : List String :=
  match target, live with
  | [], [] => []
  | [], lv :: ls => addedLine (idxPath path i) lv :: compareSlices path [] ls (i + 1)
  | tv :: ts, [] => removedLine (idxPath path i) tv :: compareSlices path ts [] (i + 1)
  | tv :: ts, lv :: ls => compareValues (idxPath path i) tv lv ++ compareSlices path ts ls (i + 1)
termination_by sizeOf target + sizeOf live
decreasing_by
  all_goals simp_wf
  all_goals omega
end

/-- Function `compareMaps` from argocd_tools.go: removed/changed lines for
`target`'s keys first, then added lines for `live`-only keys. -/
def compareMaps (path : String) (target live : List (String × GoVal)) : List String :=
  compareMapsT path target live ++ addedKeys path target live

/-- Function `computeDiff` from argocd_tools.go, parameterized by the
deterministic YAML decoder `yaml.Unmarshal` into a
`map[string]interface{}` (`none` models a decode error). An empty
document on either side, or a decode failure on either side, yields the
empty diff; otherwise the joined lines of `compareMaps`. -/
def computeDiff (parse : String → Option (List (String × GoVal))) (target live : String) :
    String :=
  if target = "" ∨ live = "" then ""
  else
    match parse target with
    | none => ""
    | some tm =>
      match parse live with
      | none => ""
      | some lm =>
        let diffLines := compareMaps "" tm lm
        if diffLines = [] then "" else String.intercalate "\n" diffLines

set_option maxRecDepth 40000

/-- The truncated string never exceeds the character budget. -/
theorem truncateString_length (s : List Char) (n : Nat) : (truncateString s n).length ≤ n := by
  unfold truncateString
  by_cases h1 : s.length ≤ n
  · simp [h1]
  · by_cases h2 : n ≤ 3
    · simp [h1, h2]
    · simp [h1, h2, List.length_append, List.length_take]
      omega

/-- Splitting always yields at least one piece. -/
theorem splitNL_ne_nil (s : List Char) : splitNL s ≠ [] := by
  cases s with
  | nil => simp [splitNL]
  | cons c rest =>
    simp only [splitNL]
    cases splitNL rest with
    | nil => simp
    | cons hd tl => by_cases hc : c = '\n' <;> simp [hc]

/-- The number of pieces is one more than the number of newlines. -/
theorem splitNL_length (s : List Char) : (splitNL s).length = s.count '\n' + 1 := by
  induction s with
  | nil => simp [splitNL]
  | cons c rest ih =>
    cases hm : splitNL rest with
    | nil => exact absurd hm (splitNL_ne_nil rest)
    | cons hd tl =>
      rw [hm] at ih
      simp only [List.length_cons] at ih
      by_cases hc : c = '\n' <;>
        simp [splitNL, hm, hc, List.count_cons] <;> omega

/-- No piece produced by splitting contains a newline. -/
theorem splitNL_no_nl (s : List Char) : ∀ p ∈ splitNL s, '\n' ∉ p := by
  induction s with
  | nil =>
    intro p hp
    simp [splitNL] at hp
    simp [hp]
  | cons c rest ih =>
    intro p hp
    cases hm : splitNL rest with
    | nil => exact absurd hm (splitNL_ne_nil rest)
    | cons hd tl =>
      rw [hm] at ih
      by_cases hc : c = '\n' <;> simp [splitNL, hm, hc] at hp
      · rcases hp with hp | hp | hp
        · simp [hp]
        · exact ih p (hp ▸ List.mem_cons_self hd tl)
        · exact ih p (List.mem_cons_of_mem hd hp)
      · rcases hp with hp | hp
        · subst hp
          intro hmem
          rcases List.mem_cons.mp hmem with h | h
          · exact hc h.symm
          · exact ih hd (List.mem_cons_self hd tl) h
        · exact ih p (List.mem_cons_of_mem hd hp)

/-- Joining a split whose first piece got one character longer. -/
theorem joinNL_cons_head (c : Char) (hd : List Char) (tl : List (List Char)) :
    joinNL ((c :: hd) :: tl) = c :: joinNL (hd :: tl) := by
  cases tl <;> simp [joinNL]

/-- Splitting and re-joining reproduces the original string. -/
theorem joinNL_splitNL (s : List Char) : joinNL (splitNL s) = s := by
  induction s with
  | nil => simp [splitNL, joinNL]
  | cons c rest ih =>
    cases hm : splitNL rest with
    | nil => exact absurd hm (splitNL_ne_nil rest)
    | cons hd tl =>
      rw [hm] at ih
      by_cases hc : c = '\n'
      · simp [splitNL, hm, hc, joinNL]
        exact ih
      · simp [splitNL, hm, hc, joinNL_cons_head]
        exact ih

/-- The length of a join of a nonempty list of pieces. -/
theorem joinNL_cons_length (x : List Char) (l : List (List Char)) :
    (joinNL (x :: l)).length =
      x.length + (if l.isEmpty then 0 else (joinNL l).length + 1) := by
  cases l <;> simp [joinNL]

/-- Joining a prefix of the pieces never yields a longer string. -/
theorem joinNL_length_take (m : Nat) (xss : List (List Char)) :
    (joinNL (xss.take m)).length ≤ (joinNL xss).length := by
  induction xss generalizing m with
  | nil => simp
  | cons x xs ih =>
    cases m with
    | zero => simp [joinNL]
    | succ m =>
      rw [List.take_succ_cons, joinNL_cons_length, joinNL_cons_length]
      cases xs with
      | nil => simp
      | cons y ys =>
        cases m with
        | zero => simp [joinNL]
        | succ m2 =>
          have h1 := ih (m2 + 1)
          simp only [List.take_succ_cons] at h1 ⊢
          simp only [List.isEmpty_cons, Bool.false_eq_true, if_false]
          omega

/-- Line truncation adds at most the marker's length. -/
theorem truncateLines_length (s : List Char) (m : Nat) :
    (truncateLines s m).length ≤ s.length + truncMarker.length := by
  unfold truncateLines
  by_cases h : (splitNL s).length ≤ m
  · simp [h]
  · simp only [h, if_false, List.length_append]
    have h1 := joinNL_length_take m (splitNL s)
    rw [joinNL_splitNL] at h1
    omega

/-- Joining newline-free pieces creates one newline per separator. -/
theorem count_nl_joinNL (x : List Char) (xs : List (List Char))
    (h : ∀ p ∈ x :: xs, '\n' ∉ p) : (joinNL (x :: xs)).count '\n' = xs.length := by
  induction xs generalizing x with
  | nil =>
    simp [joinNL]
    exact List.count_eq_zero.mpr (h x (List.mem_cons_self x []))
  | cons y ys ih =>
    have hx : '\n' ∉ x := h x (List.mem_cons_self _ _)
    have hrest : ∀ p ∈ y :: ys, '\n' ∉ p := fun p hp => h p (List.mem_cons_of_mem x hp)
    have : joinNL (x :: y :: ys) = x ++ '\n' :: joinNL (y :: ys) := by simp [joinNL]
    rw [this, List.count_append, List.count_cons]
    rw [List.count_eq_zero.mpr hx, ih y hrest]
    simp

/-- After line truncation, the result has at most `m + 1` lines. -/
theorem truncateLines_lines (s : List Char) (m : Nat) (hm : 1 ≤ m) :
    (splitNL (truncateLines s m)).length ≤ m + 1 := by
  unfold truncateLines
  by_cases h : (splitNL s).length ≤ m
  · simp only [h, if_true]
    omega
  · simp only [h, if_false]
    rw [splitNL_length, List.count_append]
    have hmark : truncMarker.count '\n' = 1 := by decide
    have hlen : ((splitNL s).take m).length = m := by
      rw [List.length_take]
      omega
    obtain ⟨z, zs, hz⟩ : ∃ z zs, (splitNL s).take m = z :: zs := by
      cases hq : (splitNL s).take m with
      | nil =>
        rw [hq] at hlen
        simp at hlen
        omega
      | cons a b => exact ⟨a, b, rfl⟩
    have hnl : ∀ p ∈ z :: zs, '\n' ∉ p := by
      intro p hp
      exact splitNL_no_nl s p (List.take_subset m _ (hz ▸ hp))
    have hcount := count_nl_joinNL z zs hnl
    rw [hz, hcount, hmark]
    rw [hz] at hlen
    simp at hlen
    omega

/-- A 101-line string (101 copies of `"a"` joined by newlines). -/
def longLines : List Char := joinNL (List.replicate 101 ['a'])

/-- Line count of a string value (0 for non-strings). -/
def linesOfStr : GoVal → Nat
  | GoVal.str s => (splitNL s).length
  | _ => 0

/-- C1 (amended): `truncateResponse` returns a sequence of at most
`MaxListItems` items; a returned string has at most
`MaxResponseSizeChars + 16` characters (the marker's length) and at most
`MaxResponseLines + 1` lines — the marker line appended on line
truncation exceeds both per-string ceilings by exactly that margin. -/
theorem truncateResponse_bounds (v : GoVal) :
    (∀ xs, truncateResponse v = GoVal.arr xs → xs.length ≤ MaxListItems) ∧
    (∀ s, truncateResponse v = GoVal.str s →
      s.length ≤ MaxResponseSizeChars + truncMarker.length ∧
      (splitNL s).length ≤ MaxResponseLines + 1) := by
  cases v with
  | str s0 =>
    constructor
    · intro xs h
      simp [truncateResponse] at h
    · intro s h
      simp only [truncateResponse, GoVal.str.injEq] at h
      subst h
      constructor
      · have h1 := truncateLines_length (truncateString s0 MaxResponseSizeChars) MaxResponseLines
        have h2 := truncateString_length s0 MaxResponseSizeChars
        omega
      · exact truncateLines_lines _ _ (by simp [MaxResponseLines])
  | arr v0 =>
    constructor
    · intro xs h
      by_cases hl : v0.length > MaxListItems
      · simp only [truncateResponse, hl, if_true, GoVal.arr.injEq] at h
        subst h
        simp only [List.length_take]
        omega
      · simp only [truncateResponse, hl, if_false, GoVal.arr.injEq] at h
        subst h
        omega
    · intro s h
      by_cases hl : v0.length > MaxListItems <;>
        simp [truncateResponse, hl] at h
  | obj kvs => constructor <;> intro x h <;> simp [truncateResponse] at h
  | null => constructor <;> intro x h <;> simp [truncateResponse] at h
  | bool b => constructor <;> intro x h <;> simp [truncateResponse] at h
  | num n => constructor <;> intro x h <;> simp [truncateResponse] at h

/-- C1 witness: the bounds instantiated on the one-character string. -/
theorem truncateResponse_bounds_witness :
    (['a'] : List Char).length ≤ MaxResponseSizeChars + truncMarker.length ∧
    (splitNL ['a']).length ≤ MaxResponseLines + 1 :=
  (truncateResponse_bounds (GoVal.str ['a'])).2 ['a'] rfl

/-- C1 counterexample: on a 101-line string the bounder returns a string
of 101 lines — strictly more than the line ceiling of 100, because the
`"... (truncated)"` marker is appended as an extra line. -/
theorem truncateResponse_line_ceiling_exceeded :
    MaxResponseLines < linesOfStr (truncateResponse (GoVal.str longLines)) := by decide

/-- C2 (amended): a sequence longer than the item ceiling is cut to
exactly its `MaxListItems`-prefix; the kept elements are returned
unchanged (no recursive bounding) and no truncation indicator is
produced. -/
theorem truncateResponse_cuts_to_ceiling (xs : List GoVal) (h : MaxListItems < xs.length) :
    truncateResponse (GoVal.arr xs) = GoVal.arr (xs.take MaxListItems) := by
  simp [truncateResponse, h]

/-- C2 witness: the prefix theorem instantiated on a 51-element list. -/
theorem truncateResponse_cuts_to_ceiling_witness :
    truncateResponse (GoVal.arr (List.replicate 51 GoVal.null)) =
      GoVal.arr (List.take MaxListItems (List.replicate 51 GoVal.null)) :=
  truncateResponse_cuts_to_ceiling _ (by decide)

/-- C2 counterexample: a 51-element list of 101-line strings is cut to 50
elements whose strings are NOT line-truncated — had the bounder recursed
into kept elements, each string would have changed. -/
theorem truncateResponse_no_elementwise_bounding :
    truncateResponse (GoVal.arr (List.replicate 51 (GoVal.str longLines))) =
      GoVal.arr (List.replicate 50 (GoVal.str longLines)) ∧
    truncateResponse (GoVal.str longLines) ≠ GoVal.str longLines := by
  constructor
  · rfl
  · intro h
    simp only [truncateResponse] at h
    exact absurd (GoVal.str.inj h) (by decide)

/-- C9: evaluating `ResultList` at the failing input of
`TestResultList_InvalidType` — a non-slice `items` with a nil error —
hits the unchecked type assertion `items.([]interface{})` and panics
(`none`), although the repository's own test requires a normal
error-result return. -/
theorem resultList_panics_on_invalid_type :
    ResultList (GoVal.str ("not a slice".toList)) 0 none = none := rfl

/-- C4 (amended): a list result carries exactly `items` (the
`MaxListItems`-prefix of the given items) and `total` (the
caller-supplied count); no `limited` flag is present in the response. -/
theorem resultList_items_total (xs : List GoVal) (total : Int) :
    ResultList (GoVal.arr xs) total none =
      some { text := GoVal.obj [("items", GoVal.arr (xs.take MaxListItems)),
                                ("total", GoVal.num total)],
             isError := false } ∧
    lookupGo "limited" [("items", GoVal.arr (xs.take MaxListItems)),
                        ("total", GoVal.num total)] = none := by
  constructor
  · have harr : truncateResponse (GoVal.arr xs) = GoVal.arr (xs.take MaxListItems) := by
      by_cases h : MaxListItems < xs.length
      · simp [truncateResponse, h]
      · simp only [truncateResponse]
        rw [if_neg h, List.take_of_length_le (le_of_not_lt h)]
    simp [ResultList, harr]
  · simp [lookupGo]

/-- C4 counterexample: with 3 total and an empty (pre-shortened) items
list the response holds only `items` and `total`; the `limited` flag the
specification promises (`total > len(items)`, here `true`) is absent. -/
theorem resultList_missing_limited_flag :
    ResultList (GoVal.arr []) 3 none =
      some { text := GoVal.obj [("items", GoVal.arr []), ("total", GoVal.num 3)],
             isError := false } ∧
    lookupGo "limited" [("items", GoVal.arr []), ("total", GoVal.num 3)] = none :=
  ⟨rfl, rfl⟩

/-- Field access on an object value. -/
def objField (k : String) : GoVal → Option GoVal
  | GoVal.obj kvs => lookupGo k kvs
  | _ => none

/-- C8 (amended): in the event-listing output, each canonical field
(`type`, `reason`, `message`, `timestamp`) that is absent from the
source record renders as JSON `null` (the Go zero value `nil`), never as
an error — not as an empty string. -/
theorem eventEntry_absent_field_null (m : List (String × GoVal)) (k : String)
    (hk : k ∈ (["type", "reason", "message", "timestamp"] : List String))
    (habs : lookupGo k m = none) :
    objField k (eventEntry m) = some GoVal.null := by
  simp only [List.mem_cons, List.not_mem_nil, or_false] at hk
  rcases hk with hk | hk | hk | hk <;> subst hk <;>
    simp [eventEntry, objField, lookupGo, habs]

/-- C8 witness: the `type` field of an empty record renders as `null`. -/
theorem eventEntry_absent_field_null_witness :
    objField "type" (eventEntry []) = some GoVal.null :=
  eventEntry_absent_field_null [] "type" (by simp) rfl

/-- C8 counterexample: the `type` field of an empty source record is
`null` in the output, which is not the empty string the claim demands. -/
theorem eventEntry_missing_field_not_empty_string :
    objField "type" (eventEntry []) = some GoVal.null ∧
    GoVal.null ≠ GoVal.str [] := by
  exact ⟨rfl, by simp⟩

/-- C3 (amended): normalization tries the wrapped-list shape first and
uses it whenever the `items` field is present and parses as a record
list; otherwise it falls back to the bare-sequence shape; `{}` and
scalar inputs yield the error — but `null` does NOT: the bare-sequence
fallback accepts JSON `null` as an empty record slice, so `null`
returns an empty record list instead of a `MalformedEventsError`. -/
theorem parseEvents_shapes :
    (∀ kvs itemsVal items, lookupGo "items" kvs = some itemsVal →
        asObjArray itemsVal = some items →
        parseEvents (GoVal.obj kvs) = some items) ∧
    (∀ xs items, asObjArray (GoVal.arr xs) = some items →
        parseEvents (GoVal.arr xs) = some items) ∧
    parseEvents (GoVal.obj []) = none ∧
    parseEvents GoVal.null = some [] ∧
    (∀ b, parseEvents (GoVal.bool b) = none) ∧
    (∀ n, parseEvents (GoVal.num n) = none) ∧
    (∀ s, parseEvents (GoVal.str s) = none) := by
  refine ⟨?_, ?_, rfl, rfl, fun b => rfl, fun n => rfl, fun s => rfl⟩
  · intro kvs itemsVal items h1 h2
    simp [parseEvents, h1, h2]
  · intro xs items h
    simp [parseEvents, h]

/-- C3 witness: the wrapped-list branch on the spec's own example shape. -/
theorem parseEvents_shapes_witness :
    parseEvents (GoVal.obj
        [("items", GoVal.arr [GoVal.obj [("type", GoVal.str ("Normal".toList))]])]) =
      some [[("type", GoVal.str ("Normal".toList))]] :=
  parseEvents_shapes.1 _ _ _ rfl rfl

/-- C3 counterexample: on `null` the normalizer returns an empty record
list with no error, where the claim requires a `MalformedEventsError`. -/
theorem parseEvents_null_not_error : parseEvents GoVal.null = some [] := rfl

/-- C10 (amended): with an empty or undecodable document on either side,
`computeDiff` returns the empty diff immediately — it performs no
opaque-scalar whole-string comparison and emits no entry even for
unequal documents. -/
theorem computeDiff_unparsable_empty (parse : String → Option (List (String × GoVal)))
    (target live : String)
    (h : target = "" ∨ live = "" ∨ parse target = none ∨ parse live = none) :
    computeDiff parse target live = "" := by
  unfold computeDiff
  by_cases h1 : target = "" ∨ live = ""
  · simp [h1]
  · rw [if_neg h1]
    rcases h with h | h | h | h
    · exact absurd (Or.inl h) h1
    · exact absurd (Or.inr h) h1
    · simp [h]
    · cases hp : parse target with
      | none => simp
      | some tm => simp [h]

/-- C10 witness: two distinct undecodable one-character documents. -/
theorem computeDiff_unparsable_empty_witness :
    computeDiff (fun _ => none) "a" "b" = "" :=
  computeDiff_unparsable_empty _ "a" "b" (Or.inr (Or.inr (Or.inl rfl)))

/-- C10 counterexample: for unequal documents that both fail to decode,
the diff is empty — no `Changed` entry from a whole-string comparison,
contradicting the claimed opaque-scalar fallback. -/
theorem computeDiff_unparsable_no_changed_entry :
    computeDiff (fun _ => none) "x" "y" = "" ∧ "x" ≠ "y" := by
  constructor
  · rfl
  · decide

/-- One positional entry of the sequence comparison rule: an index
present in both sequences recurses at the indexed path, an index present
only in the target emits one removed line, an index present only in the
live sequence emits one added line. -/
def sliceEntry (path : String) (i : Nat) : Option GoVal → Option GoVal → List String
  | some tv, some lv => compareValues (idxPath path i) tv lv
  | some tv, none => [removedLine (idxPath path i) tv]
  | none, some lv => [addedLine (idxPath path i) lv]
  | none, none => []

/-- Index-generalized version of the positional characterization. -/
theorem compareSlices_positional_aux (path : String) :
    ∀ (target live : List GoVal) (i : Nat),
      compareSlices path target live i =
        (List.range (max target.length live.length)).flatMap fun j =>
          sliceEntry path (i + j) target[j]? live[j]? := by
  intro target
  induction target with
  | nil =>
    intro live
    induction live with
    | nil => intro i; simp [compareSlices]
    | cons lv ls ihl =>
      intro i
      simp only [compareSlices]
      rw [ihl (i + 1)]
      simp only [List.length_nil, List.length_cons, Nat.max_eq_right (Nat.zero_le _),
        Nat.zero_max]
      rw [List.range_succ_eq_map, List.flatMap_cons, List.flatMap_map]
      simp only [List.getElem?_nil, List.getElem?_cons_zero, List.getElem?_cons_succ,
        Function.comp_def, Nat.add_zero, Nat.add_succ, Nat.succ_add]
      rfl
  | cons tv ts iht =>
    intro live
    cases live with
    | nil =>
      intro i
      simp only [compareSlices]
      rw [iht [] (i + 1)]
      simp only [List.length_nil, List.length_cons, Nat.max_eq_left (Nat.zero_le _),
        Nat.max_zero]
      rw [List.range_succ_eq_map, List.flatMap_cons, List.flatMap_map]
      simp only [List.getElem?_nil, List.getElem?_cons_zero, List.getElem?_cons_succ,
        Function.comp_def, Nat.add_zero, Nat.add_succ, Nat.succ_add]
      rfl
    | cons lv ls =>
      intro i
      simp only [compareSlices]
      rw [iht ls (i + 1)]
      simp only [List.length_cons, Nat.succ_max_succ]
      rw [List.range_succ_eq_map, List.flatMap_cons, List.flatMap_map]
      simp only [List.getElem?_cons_zero, List.getElem?_cons_succ,
        Function.comp_def, Nat.add_zero, Nat.add_succ, Nat.succ_add]
      rfl

/-- C6: the sequence comparison is purely positional — it equals the
concatenation, over every index `i` below `max(len(target), len(live))`,
of: one `(REMOVED)` entry when `i` is only in `target`, one `(ADDED)`
entry when `i` is only in `live`, and the recursive comparison at the
indexed path segment `path[i]` when `i` is in both. -/
theorem compareSlices_positional (path : String) (target live : List GoVal) :
    compareSlices path target live 0 =
      (List.range (max target.length live.length)).flatMap fun i =>
        sliceEntry path i target[i]? live[i]? := by
  have h := compareSlices_positional_aux path target live 0
  simpa using h

/-- A successful lookup returns a stored binding. -/
theorem mem_of_lookupGo_eq_some {k : String} {v : GoVal} :
    ∀ {l : List (String × GoVal)}, lookupGo k l = some v → (k, v) ∈ l := by
  intro l
  induction l with
  | nil => intro h; simp [lookupGo] at h
  | cons p rest ih =>
    intro h
    obtain ⟨k2, w⟩ := p
    by_cases hk : k2 = k
    · simp only [lookupGo, hk, if_true, Option.some.injEq] at h
      subst hk
      subst h
      exact List.mem_cons_self _ _
    · simp only [lookupGo, hk, if_false] at h
      exact List.mem_cons_of_mem _ (ih h)

/-- A failed lookup means the key is absent. -/
theorem lookupGo_eq_none_iff {k : String} :
    ∀ {l : List (String × GoVal)}, lookupGo k l = none ↔ k ∉ l.map Prod.fst := by
  intro l
  induction l with
  | nil => simp [lookupGo]
  | cons p rest ih =>
    obtain ⟨k2, w⟩ := p
    by_cases hk : k2 = k <;> simp [lookupGo, hk, ih] <;> tauto

/-- With duplicate-free keys, lookup finds exactly the stored binding. -/
theorem lookupGo_of_mem_nodup {k : String} {v : GoVal} :
    ∀ {l : List (String × GoVal)}, (l.map Prod.fst).Nodup → (k, v) ∈ l →
      lookupGo k l = some v := by
  intro l
  induction l with
  | nil => intro _ h; simp at h
  | cons p rest ih =>
    intro hnd h
    obtain ⟨k2, w⟩ := p
    simp only [List.map_cons, List.nodup_cons] at hnd
    rcases List.mem_cons.mp h with h1 | h1
    · obtain ⟨hk, hv⟩ := Prod.mk.injEq .. ▸ h1
      simp [lookupGo, hk.symm, hv]
    · have hkmem : k ∈ rest.map Prod.fst := List.mem_map.mpr ⟨(k, v), h1, rfl⟩
      have hk : k2 ≠ k := fun he => hnd.1 (he ▸ hkmem)
      simp only [lookupGo, hk, if_false]
      exact ih hnd.2 h1

/-- A stored key is always found. -/
theorem lookupGo_isSome_of_mem {k : String} {v : GoVal} :
    ∀ {l : List (String × GoVal)}, (k, v) ∈ l → (lookupGo k l).isSome := by
  intro l
  induction l with
  | nil => intro h; simp at h
  | cons p rest ih =>
    intro h
    obtain ⟨k2, w⟩ := p
    by_cases hk : k2 = k
    · simp [lookupGo, hk]
    · rcases List.mem_cons.mp h with h1 | h1
      · exact absurd (congrArg Prod.fst h1).symm hk
      · simp only [lookupGo, hk, if_false]
        exact ih h1

/-- Lookup is invariant under permuting a map with duplicate-free keys:
it depends only on the map contents, not the iteration order. -/
theorem lookupGo_perm {l1 l2 : List (String × GoVal)} (h : l1.Perm l2)
    (hn : (l1.map Prod.fst).Nodup) (k : String) : lookupGo k l1 = lookupGo k l2 := by
  cases hq : lookupGo k l1 with
  | some v =>
    have hmem := mem_of_lookupGo_eq_some hq
    have hn2 : (l2.map Prod.fst).Nodup := ((h.map Prod.fst).nodup_iff).mp hn
    exact (lookupGo_of_mem_nodup hn2 (h.mem_iff.mp hmem)).symm
  | none =>
    have habs := lookupGo_eq_none_iff.mp hq
    have habs2 : k ∉ l2.map Prod.fst := fun hmem =>
      habs ((h.map Prod.fst).mem_iff.mpr hmem)
    exact (lookupGo_eq_none_iff.mpr habs2).symm

/-- Unfolding the target loop at a key present in the live map. -/
theorem compareMapsT_cons_some {k : String} {tv lv : GoVal}
    {live : List (String × GoVal)} (path : String) (rest : List (String × GoVal))
    (hlk : lookupGo k live = some lv) :
    compareMapsT path ((k, tv) :: rest) live =
      compareValues (keyPath path k) tv lv ++ compareMapsT path rest live := by
  simp only [compareMapsT]
  split
  · next heq => rw [hlk] at heq; cases heq
  · next lv2 heq =>
    rw [hlk] at heq
    cases heq
    rfl

/-- Unfolding the target loop at a key absent from the live map. -/
theorem compareMapsT_cons_none {k : String} {tv : GoVal}
    {live : List (String × GoVal)} (path : String) (rest : List (String × GoVal))
    (hlk : lookupGo k live = none) :
    compareMapsT path ((k, tv) :: rest) live =
      removedLine (keyPath path k) tv :: compareMapsT path rest live := by
  simp only [compareMapsT]
  split
  · rfl
  · next lv2 heq => rw [hlk] at heq; cases heq

/-- The target loop as a flat map over the target's iteration order. -/
theorem compareMapsT_eq_flatMap (path : String) (target live : List (String × GoVal)) :
    compareMapsT path target live = target.flatMap fun kv =>
      match lookupGo kv.1 live with
      | none => [removedLine (keyPath path kv.1) kv.2]
      | some lv => compareValues (keyPath path kv.1) kv.2 lv := by
  induction target with
  | nil => simp [compareMapsT]
  | cons p rest ih =>
    obtain ⟨k, tv⟩ := p
    rw [List.flatMap_cons, ← ih]
    cases hlk : lookupGo k live with
    | none =>
      rw [compareMapsT_cons_none path rest hlk]
      try simp [hlk]
    | some lv =>
      rw [compareMapsT_cons_some path rest hlk]
      try simp [hlk]

/-- C7 (amended): the diff of two maps is the block of removed/changed
entries for the target's keys (in the target's iteration order) followed
by the block of added entries for live-only keys (in the live's
iteration order); two runs over the same pair of maps produce the same
multiset of entries, but the order within each block follows the map
iteration order, which Go does not fix. -/
theorem compareMaps_order (path : String) (t1 t2 l1 l2 : List (String × GoVal))
    (ht : t1.Perm t2) (hl : l1.Perm l2)
    (hnt : (t1.map Prod.fst).Nodup) (hnl : (l1.map Prod.fst).Nodup) :
    compareMaps path t1 l1 = compareMapsT path t1 l1 ++ addedKeys path t1 l1 ∧
    (compareMaps path t1 l1).Perm (compareMaps path t2 l2) := by
  refine ⟨rfl, ?_⟩
  unfold compareMaps
  apply List.Perm.append
  · rw [compareMapsT_eq_flatMap, compareMapsT_eq_flatMap]
    have hfun : (fun kv : String × GoVal =>
        match lookupGo kv.1 l1 with
        | none => [removedLine (keyPath path kv.1) kv.2]
        | some lv => compareValues (keyPath path kv.1) kv.2 lv) =
        (fun kv : String × GoVal =>
        match lookupGo kv.1 l2 with
        | none => [removedLine (keyPath path kv.1) kv.2]
        | some lv => compareValues (keyPath path kv.1) kv.2 lv) := by
      funext kv
      rw [lookupGo_perm hl hnl kv.1]
    rw [hfun]
    exact ht.flatMap_right _
  · unfold addedKeys
    have hfun : (fun kv : String × GoVal =>
        if (lookupGo kv.1 t1).isNone then some (addedLine (keyPath path kv.1) kv.2)
        else none) =
        (fun kv : String × GoVal =>
        if (lookupGo kv.1 t2).isNone then some (addedLine (keyPath path kv.1) kv.2)
        else none) := by
      funext kv
      rw [lookupGo_perm ht hnt kv.1]
    rw [hfun]
    exact hl.filterMap _

/-- C7 witness: the order theorem instantiated on a one-key map. -/
theorem compareMaps_order_witness :
    compareMaps "" [("a", GoVal.null)] [] =
      compareMapsT "" [("a", GoVal.null)] [] ++ addedKeys "" [("a", GoVal.null)] [] ∧
    (compareMaps "" [("a", GoVal.null)] []).Perm (compareMaps "" [("a", GoVal.null)] []) :=
  compareMaps_order "" [("a", GoVal.null)] [("a", GoVal.null)] [] []
    (List.Perm.refl _) (List.Perm.refl _) (by simp) (by simp)

/-- C7 counterexample: the same Go map presented in two iteration orders
(Go randomizes map iteration) yields differently ordered diff output, so
two runs on the same pair of trees need not produce the same ordered
entry sequence. -/
theorem compareMaps_iteration_order_dependent :
    ([("a", GoVal.str ['x']), ("b", GoVal.str ['y'])] :
        List (String × GoVal)).Perm
      [("b", GoVal.str ['y']), ("a", GoVal.str ['x'])] ∧
    compareMaps "" [("a", GoVal.str ['x']), ("b", GoVal.str ['y'])] [] ≠
      compareMaps "" [("b", GoVal.str ['y']), ("a", GoVal.str ['x'])] [] := by
  constructor
  · exact List.Perm.swap _ _ _
  · simp [compareMaps, compareMapsT, addedKeys, lookupGo, removedLine, keyPath, goFmt]

/-- A valid document tree: every object node in it has duplicate-free
keys, as is guaranteed for any tree decoded from a Go map. -/
inductive WFTree : GoVal → Prop where
  | null : WFTree GoVal.null
  | bool (b : Bool) : WFTree (GoVal.bool b)
  | num (n : Int) : WFTree (GoVal.num n)
  | str (s : List Char) : WFTree (GoVal.str s)
  | arr (xs : List GoVal) : (∀ v ∈ xs, WFTree v) → WFTree (GoVal.arr xs)
  | obj (kvs : List (String × GoVal)) : (kvs.map Prod.fst).Nodup →
      (∀ kv ∈ kvs, WFTree kv.2) → WFTree (GoVal.obj kvs)

/-- Comparing a valid tree with itself yields no diff lines
(strong induction on the tree size). -/
theorem compareValues_self_aux :
    ∀ (n : Nat) (v : GoVal), sizeOf v ≤ n → WFTree v → ∀ path,
      compareValues path v v = [] := by
  intro n
  induction n with
  | zero =>
    intro v hv
    exfalso
    cases v <;> simp at hv
  | succ n ihn =>
    intro v hv hw path
    cases v with
    | null => simp [compareValues]
    | bool b => simp [compareValues]
    | num m => simp [compareValues]
    | str s => simp [compareValues]
    | arr xs =>
      have hsize : ∀ x ∈ xs, sizeOf x ≤ n := by
        intro x hx
        have h1 := List.sizeOf_lt_of_mem hx
        have h2 : sizeOf (GoVal.arr xs) = 1 + sizeOf xs := by simp
        omega
      have hwf : ∀ x ∈ xs, WFTree x := by
        cases hw with | arr _ h => exact h
      have haux : ∀ (l : List GoVal), (∀ x ∈ l, x ∈ xs) → ∀ i,
          compareSlices path l l i = [] := by
        intro l
        induction l with
        | nil =>
          intro _ i
          simp [compareSlices]
        | cons x rest ihl =>
          intro hsub i
          have hx : x ∈ xs := hsub x (List.mem_cons_self _ _)
          simp only [compareSlices]
          rw [ihn x (hsize x hx) (hwf x hx) (idxPath path i),
            ihl (fun y hy => hsub y (List.mem_cons_of_mem _ hy)) (i + 1)]
          rfl
      simp only [compareValues]
      exact haux xs (fun x hx => hx) 0
    | obj kvs =>
      have hnd : (kvs.map Prod.fst).Nodup := by
        cases hw with | obj _ h1 _ => exact h1
      have hvals : ∀ kv ∈ kvs, WFTree kv.2 := by
        cases hw with | obj _ _ h2 => exact h2
      have hsize : ∀ kv ∈ kvs, sizeOf kv.2 ≤ n := by
        intro kv hkv
        have h1 := List.sizeOf_lt_of_mem hkv
        have h2 : sizeOf (GoVal.obj kvs) = 1 + sizeOf kvs := by simp
        have h3 : sizeOf kv.2 < sizeOf kv := by
          obtain ⟨a, b⟩ := kv
          simp
        omega
      have hadd : addedKeys path kvs kvs = [] := by
        apply List.filterMap_eq_nil_iff.mpr
        intro kv hkv
        have hks : (lookupGo kv.1 kvs).isSome :=
          lookupGo_isSome_of_mem (v := kv.2) hkv
        have hnone : (lookupGo kv.1 kvs).isNone = false := by
          rcases Option.isSome_iff_exists.mp hks with ⟨w, hw⟩
          simp [hw]
        simp [hnone]
      have hmapsT : ∀ (t : List (String × GoVal)), (∀ kv ∈ t, kv ∈ kvs) →
          compareMapsT path t kvs = [] := by
        intro t
        induction t with
        | nil =>
          intro _
          simp [compareMapsT]
        | cons p rest ihl =>
          intro hsub
          obtain ⟨k, tv⟩ := p
          have hmem : (k, tv) ∈ kvs := hsub _ (List.mem_cons_self _ _)
          have hlk : lookupGo k kvs = some tv := lookupGo_of_mem_nodup hnd hmem
          rw [compareMapsT_cons_some path rest hlk]
          rw [ihn tv (hsize ⟨k, tv⟩ hmem) (hvals ⟨k, tv⟩ hmem) (keyPath path k),
            ihl (fun kv hkv => hsub kv (List.mem_cons_of_mem _ hkv))]
          rfl
      simp only [compareValues]
      rw [hmapsT kvs (fun kv h => h), hadd]
      rfl

/-- C5: with the (deterministic) YAML decoder producing valid trees,
diffing any document against itself yields the empty diff. -/
theorem computeDiff_self (parse : String → Option (List (String × GoVal)))
    (hp : ∀ s m, parse s = some m → WFTree (GoVal.obj m)) (s : String) :
    computeDiff parse s s = "" := by
  unfold computeDiff
  by_cases hs : s = ""
  · rw [if_pos (Or.inl hs)]
  · rw [if_neg (by simp [hs])]
    cases hps : parse s with
    | none => simp
    | some m =>
      have hwf := hp s m hps
      have hrefl : compareValues "" (GoVal.obj m) (GoVal.obj m) = [] :=
        compareValues_self_aux (sizeOf (GoVal.obj m)) _ le_rfl hwf ""
      have hmaps : compareMaps "" m m = [] := by
        have : compareValues "" (GoVal.obj m) (GoVal.obj m) =
            compareMapsT "" m m ++ addedKeys "" m m := by
          simp [compareValues]
        rw [compareMaps, ← this, hrefl]
      simp [hmaps]

/-- C5 witness: a decoder returning one fixed well-formed one-key map. -/
theorem computeDiff_self_witness :
    computeDiff (fun _ => some [("k", GoVal.str ['v'])]) "x" "x" = "" := by
  apply computeDiff_self
  intro s m hm
  have hm2 : m = [("k", GoVal.str ['v'])] := (Option.some.inj hm).symm
  subst hm2
  refine WFTree.obj _ (by simp) ?_
  intro kv hkv
  simp at hkv
  subst hkv
  exact WFTree.str _
